import Mathlib

/-!
Verification of the point-ordering core of `chans_algorithm`
(`src/util/mod.rs`): `distance`, `compare` (angular comparator) and
`order_points` (anchor selection plus polar sort).

Floating-point (`f64`) arithmetic is embedded as exact rational
arithmetic over `ℚ`.  The crate-root items `Point` and `EPSILON` are not
part of `src/util/mod.rs` and are modelled from the spec.
-/

namespace Chan

/-- Modelled from the spec: `Point` is defined at the crate root (outside
`src/util/mod.rs`); per spec section 3 it is a value type with two
floating-point attributes `x` and `y`, embedded here as rationals. -/
structure Point where
  x : ℚ
  y : ℚ
deriving DecidableEq, Repr

instance : Inhabited Point := ⟨⟨0, 0⟩⟩

/-- Modelled from the spec: `EPSILON` is defined at the crate root
(outside `src/util/mod.rs`); per spec section 3 it is a small positive
constant in the range 1e-9 to 1e-6.  We fix the representative value
1e-9. -/
def EPSILON : ℚ := 1 / 1000000000

/-- Embeds `distance` (src/util/mod.rs:17-19):
`(p1.x - p2.x).powi(2) + (p1.y - p2.y).powi(2)`. -/
def distance (p1 p2 : Point) : ℚ :=
  (p1.x - p2.x) ^ 2 + (p1.y - p2.y) ^ 2

/-- Embeds `compare` (src/util/mod.rs:60-73): the cross product of the
vectors from `a` to `base` and from `a` to `b`, thresholded against
`EPSILON`. -/
def compare (a b base : Point) : Ordering :=
  let vec_a_base := (base.x - a.x, base.y - a.y)
  let vec_a_b := (b.x - a.x, b.y - a.y)
  let cross_prod := vec_a_base.1 * vec_a_b.2 - vec_a_base.2 * vec_a_b.1
  if cross_prod > EPSILON then Ordering.gt
  else if cross_prod < -EPSILON then Ordering.lt
  else Ordering.eq

/-- One iteration of the anchor-selection loop (src/util/mod.rs:29-39).
The accumulator carries `(lowest, lowest_idx)`; the input is the
enumerated element `(idx, point)`. -/
def lowestStep (acc : Point × ℕ) (ip : ℕ × Point) : Point × ℕ :=
  if |ip.2.y - acc.1.y| < EPSILON then
    if ip.2.x < acc.1.x then (ip.2, ip.1) else acc
  else if ip.2.y < acc.1.y then (ip.2, ip.1) else acc

/-- Embeds `Vec::swap_remove(i)` (used at src/util/mod.rs:42): the
element at index `i` is replaced by the last element and the last slot
is dropped. -/
def swapRemove (l : List Point) (i : ℕ) : List Point :=
  (l.set i (l.getLastD default)).dropLast

/-- One insertion step of the insertion sort run by
`slice::sort_unstable_by` on short slices.  The accumulator is the
already-sorted prefix in reverse order; the new element `x` moves left
past every element it compares `Less` than. -/
def insertRev (c : Point → Point → Ordering) (x : Point) : List Point → List Point
  | [] => [x]
  | y :: rest =>
    if c x y = Ordering.lt then y :: insertRev c x rest else x :: y :: rest

/-- Embeds `slice::sort_unstable_by` (src/util/mod.rs:45).  For slices
of at most 20 elements the Rust implementation (pdqsort) runs exactly
this left-to-right insertion sort.  For longer slices it switches to
quicksort with a heapsort fallback, which still permutes and terminates
but guarantees no particular order under a comparator that is not a
total order; theorems about the order of the result must therefore
restrict themselves to the insertion-sort regime. -/
def sort_unstable_by (c : Point → Point → Ordering) (l : List Point) : List Point :=
  (l.foldl (fun acc z => insertRev c z acc) []).reverse

/-- Embeds `order_points` (src/util/mod.rs:25-47).  `points[0]` on an
empty vector panics with an index-out-of-bounds fault, modelled as
`none`; otherwise the anchor scan, `swap_remove`, the comparator sort
and the re-insertion of the anchor at index 0 are performed in order. -/
def order_points (points : List Point) : Option (List Point) :=
  match points with
  | [] => none
  | p0 :: rest0 =>
    let scan := List.foldl lowestStep (p0, 0) (List.enum (p0 :: rest0))
    let lowest := scan.1
    let lowest_idx := scan.2
    let remaining := swapRemove (p0 :: rest0) lowest_idx
    some (lowest :: sort_unstable_by (fun a b => compare a b lowest) remaining)

/-! Basic unfolding lemmas. -/

theorem compare_eq_ite (a b base : Point) :
    compare a b base =
      if (base.x - a.x) * (b.y - a.y) - (base.y - a.y) * (b.x - a.x) > EPSILON then Ordering.gt
      else if (base.x - a.x) * (b.y - a.y) - (base.y - a.y) * (b.x - a.x) < -EPSILON then
        Ordering.lt
      else Ordering.eq := rfl

theorem EPSILON_pos : 0 < EPSILON := by norm_num [EPSILON]

theorem order_points_cons (p0 : Point) (rest0 : List Point) :
    order_points (p0 :: rest0) =
      some ((List.foldl lowestStep (p0, 0) (List.enum (p0 :: rest0))).1 ::
        sort_unstable_by
          (fun a b => compare a b (List.foldl lowestStep (p0, 0) (List.enum (p0 :: rest0))).1)
          (swapRemove (p0 :: rest0) (List.foldl lowestStep (p0, 0) (List.enum (p0 :: rest0))).2)) :=
  rfl

/-! Characterisation of the comparator in terms of its cross product. -/

theorem compare_eq_gt_iff (a b base : Point) :
    compare a b base = Ordering.gt ↔
      EPSILON < (base.x - a.x) * (b.y - a.y) - (base.y - a.y) * (b.x - a.x) := by
  rw [compare_eq_ite]
  split_ifs with h1 h2
  · exact iff_of_true rfl h1
  · exact iff_of_false (by decide) h1
  · exact iff_of_false (by decide) h1

theorem compare_eq_lt_iff (a b base : Point) :
    compare a b base = Ordering.lt ↔
      (base.x - a.x) * (b.y - a.y) - (base.y - a.y) * (b.x - a.x) < -EPSILON := by
  rw [compare_eq_ite]
  split_ifs with h1 h2
  · exact iff_of_false (by decide) (by linarith [EPSILON_pos])
  · exact iff_of_true rfl h2
  · exact iff_of_false (by decide) h2

theorem compare_eq_eq_iff (a b base : Point) :
    compare a b base = Ordering.eq ↔
      -EPSILON ≤ (base.x - a.x) * (b.y - a.y) - (base.y - a.y) * (b.x - a.x) ∧
        (base.x - a.x) * (b.y - a.y) - (base.y - a.y) * (b.x - a.x) ≤ EPSILON := by
  rw [compare_eq_ite]
  split_ifs with h1 h2
  · exact iff_of_false (by decide) (by rintro ⟨ha, hb⟩; linarith)
  · exact iff_of_false (by decide) (by rintro ⟨ha, hb⟩; linarith)
  · exact iff_of_true rfl ⟨by linarith, by linarith⟩

theorem cross_swap (a b base : Point) :
    (base.x - b.x) * (a.y - b.y) - (base.y - b.y) * (a.x - b.x) =
      -((base.x - a.x) * (b.y - a.y) - (base.y - a.y) * (b.x - a.x)) := by
  ring

theorem compare_swap_gt (a b base : Point) :
    compare a b base = Ordering.gt ↔ compare b a base = Ordering.lt := by
  rw [compare_eq_gt_iff, compare_eq_lt_iff, cross_swap]
  constructor <;> intro h <;> linarith

theorem compare_swap_eq (a b base : Point) :
    compare a b base = Ordering.eq ↔ compare b a base = Ordering.eq := by
  rw [compare_eq_eq_iff, compare_eq_eq_iff, cross_swap]
  constructor <;> rintro ⟨h1, h2⟩ <;> constructor <;> linarith

/-! Permutation and adjacent-sortedness facts about the insertion sort. -/

theorem insertRev_perm (c : Point → Point → Ordering) (x : Point) :
    ∀ l : List Point, (insertRev c x l).Perm (x :: l)
  | [] => by simp [insertRev]
  | y :: rest => by
    rw [insertRev]
    split_ifs with h
    · exact ((insertRev_perm c x rest).cons y).trans (List.Perm.swap x y rest)
    · exact List.Perm.refl _

theorem foldl_insertRev_perm (c : Point → Point → Ordering) :
    ∀ (l acc : List Point),
      (l.foldl (fun a z => insertRev c z a) acc).Perm (l.reverse ++ acc)
  | [], acc => by simp
  | z :: t, acc => by
    simp only [List.foldl_cons]
    refine (foldl_insertRev_perm c t (insertRev c z acc)).trans ?_
    rw [List.reverse_cons, List.append_assoc]
    exact List.Perm.append_left t.reverse (insertRev_perm c z acc)

theorem sort_unstable_by_perm (c : Point → Point → Ordering) (l : List Point) :
    (sort_unstable_by c l).Perm l := by
  unfold sort_unstable_by
  refine (List.reverse_perm _).trans ((foldl_insertRev_perm c l []).trans ?_)
  rw [List.append_nil]
  exact List.reverse_perm l

theorem insertRev_head (c : Point → Point → Ordering) (x : Point) :
    ∀ l : List Point,
      (insertRev c x l).head? = some x ∨ (insertRev c x l).head? = l.head?
  | [] => Or.inl rfl
  | y :: rest => by
    rw [insertRev]
    split_ifs with h
    · exact Or.inr rfl
    · exact Or.inl rfl

theorem insertRev_chain (base x : Point) :
    ∀ (l : List Point),
      List.Chain' (fun u v => compare u v base ≠ Ordering.lt) l →
      List.Chain' (fun u v => compare u v base ≠ Ordering.lt)
        (insertRev (fun a b => compare a b base) x l)
  | [], _ => by simp [insertRev]
  | y :: rest, h => by
    obtain ⟨hy, hrest⟩ := List.chain'_cons'.mp h
    rw [insertRev]
    split_ifs with hxy
    · refine List.chain'_cons'.mpr ⟨?_, insertRev_chain base x rest hrest⟩
      intro z hz
      rcases insertRev_head (fun a b => compare a b base) x rest with hh | hh
      · rw [hh, Option.mem_some_iff] at hz
        subst hz
        intro hcon
        exact (by decide : Ordering.gt ≠ Ordering.lt)
          (((compare_swap_gt y x base).mpr hxy).symm.trans hcon)
      · rw [hh] at hz
        exact hy z hz
    · refine List.chain'_cons'.mpr ⟨?_, h⟩
      intro z hz
      rw [List.head?_cons, Option.mem_some_iff] at hz
      subst hz
      exact hxy

theorem foldl_insertRev_chain (base : Point) :
    ∀ (l acc : List Point),
      List.Chain' (fun u v => compare u v base ≠ Ordering.lt) acc →
      List.Chain' (fun u v => compare u v base ≠ Ordering.lt)
        (l.foldl (fun a z => insertRev (fun p q => compare p q base) z a) acc)
  | [], acc, h => h
  | z :: t, acc, h => by
    simp only [List.foldl_cons]
    exact foldl_insertRev_chain base t _ (insertRev_chain base z acc h)

theorem sort_unstable_by_chain (base : Point) (l : List Point) :
    List.Chain' (fun p q => compare p q base ≠ Ordering.gt)
      (sort_unstable_by (fun a b => compare a b base) l) := by
  unfold sort_unstable_by
  rw [List.chain'_reverse]
  refine List.Chain'.imp ?_ (foldl_insertRev_chain base l [] List.chain'_nil)
  intro u v huv hvu
  exact huv ((compare_swap_gt v u base).mp hvu)

/-! Permutation facts about `swap_remove`. -/

theorem getLastD_cons_dropLast_perm (l : List Point) (d : Point) (h : l ≠ []) :
    (l.getLastD d :: l.dropLast).Perm l := by
  conv_rhs => rw [← List.dropLast_append_getLast h]
  rw [List.getLastD_eq_getLast?, List.getLast?_eq_getLast l h]
  exact (List.perm_append_singleton _ _).symm

theorem swapRemove_perm : ∀ (l : List Point) (i : ℕ) (h : i < l.length),
    (l.get ⟨i, h⟩ :: swapRemove l i).Perm l
  | [], i, h => absurd h (by simp)
  | x :: t, 0, h => by
    unfold swapRemove
    rw [List.set_cons_zero]
    cases t with
    | nil => simp
    | cons u t' =>
      rw [List.dropLast_cons_of_ne_nil (List.cons_ne_nil u t')]
      refine List.Perm.cons x ?_
      have hlast : (x :: u :: t').getLastD default = (u :: t').getLastD default := by
        rw [List.getLastD_eq_getLast?, List.getLastD_eq_getLast?, List.getLast?_cons_cons]
      rw [hlast]
      exact getLastD_cons_dropLast_perm (u :: t') default (List.cons_ne_nil u t')
  | x :: t, i + 1, h => by
    have ht : i < t.length := by simpa using h
    obtain ⟨u, t', rfl⟩ := List.exists_cons_of_ne_nil
      (List.ne_nil_of_length_pos (lt_of_le_of_lt (Nat.zero_le i) ht))
    unfold swapRemove
    rw [List.set_cons_succ]
    have hlast : (x :: u :: t').getLastD default = (u :: t').getLastD default := by
      rw [List.getLastD_eq_getLast?, List.getLastD_eq_getLast?, List.getLast?_cons_cons]
    rw [hlast]
    have hsetne : ((u :: t').set i ((u :: t').getLastD default)) ≠ [] := by
      apply List.ne_nil_of_length_pos
      rw [List.length_set]
      simp
    rw [List.dropLast_cons_of_ne_nil hsetne, List.get_cons_succ]
    refine (List.Perm.swap x _ _).trans (List.Perm.cons x ?_)
    have hrec := swapRemove_perm (u :: t') i ht
    unfold swapRemove at hrec
    exact hrec

/-! Facts about the anchor-selection scan. -/

theorem lowestStep_cases (acc : Point × ℕ) (ip : ℕ × Point) :
    lowestStep acc ip = acc ∨ lowestStep acc ip = (ip.2, ip.1) := by
  unfold lowestStep
  split_ifs <;> simp

theorem foldl_lowestStep_cases : ∀ (l : List (ℕ × Point)) (acc : Point × ℕ),
    l.foldl lowestStep acc = acc ∨ ∃ ip ∈ l, l.foldl lowestStep acc = (ip.2, ip.1)
  | [], acc => Or.inl rfl
  | z :: t, acc => by
    simp only [List.foldl_cons]
    rcases lowestStep_cases acc z with hz | hz <;> rw [hz]
    · rcases foldl_lowestStep_cases t acc with h | ⟨ip, hip, h⟩
      · exact Or.inl h
      · exact Or.inr ⟨ip, List.mem_cons_of_mem z hip, h⟩
    · rcases foldl_lowestStep_cases t (z.2, z.1) with h | ⟨ip, hip, h⟩
      · exact Or.inr ⟨z, List.mem_cons_self z t, h⟩
      · exact Or.inr ⟨ip, List.mem_cons_of_mem z hip, h⟩

theorem lowestStep_y_lt (acc : Point × ℕ) (ip : ℕ × Point) :
    (lowestStep acc ip).1.y < acc.1.y + EPSILON ∧
      (lowestStep acc ip).1.y < ip.2.y + EPSILON := by
  unfold lowestStep
  split_ifs with h1 h2 h3
  · rw [abs_lt] at h1
    exact ⟨by show ip.2.y < acc.1.y + EPSILON; linarith,
      by show ip.2.y < ip.2.y + EPSILON; linarith [EPSILON_pos]⟩
  · rw [abs_lt] at h1
    exact ⟨by show acc.1.y < acc.1.y + EPSILON; linarith [EPSILON_pos],
      by show acc.1.y < ip.2.y + EPSILON; linarith⟩
  · exact ⟨by show ip.2.y < acc.1.y + EPSILON; linarith [EPSILON_pos],
      by show ip.2.y < ip.2.y + EPSILON; linarith [EPSILON_pos]⟩
  · push_neg at h3
    exact ⟨by show acc.1.y < acc.1.y + EPSILON; linarith [EPSILON_pos],
      by show acc.1.y < ip.2.y + EPSILON; linarith [EPSILON_pos]⟩

theorem foldl_lowestStep_y : ∀ (l : List (ℕ × Point)) (acc : Point × ℕ),
    (l.foldl lowestStep acc).1.y < acc.1.y + ((l.length : ℚ) + 1) * EPSILON ∧
      ∀ ip ∈ l, (l.foldl lowestStep acc).1.y < ip.2.y + ((l.length : ℚ) + 1) * EPSILON
  | [], acc => by
    refine ⟨?_, fun ip hip => absurd hip (List.not_mem_nil ip)⟩
    simp only [List.foldl_nil, List.length_nil]
    push_cast
    linarith [EPSILON_pos]
  | z :: t, acc => by
    simp only [List.foldl_cons, List.length_cons]
    obtain ⟨ih1, ih2⟩ := foldl_lowestStep_y t (lowestStep acc z)
    obtain ⟨s1, s2⟩ := lowestStep_y_lt acc z
    constructor
    · push_cast
      linarith [EPSILON_pos]
    · intro ip hip
      rcases List.mem_cons.mp hip with rfl | hip'
      · push_cast
        linarith [EPSILON_pos]
      · have hi := ih2 ip hip'
        push_cast
        push_cast at hi
        linarith [EPSILON_pos]

theorem order_points_scan_get (p0 : Point) (rest0 : List Point) :
    (p0 :: rest0).get? (List.foldl lowestStep (p0, 0) (List.enum (p0 :: rest0))).2 =
      some (List.foldl lowestStep (p0, 0) (List.enum (p0 :: rest0))).1 := by
  rcases foldl_lowestStep_cases (List.enum (p0 :: rest0)) (p0, 0) with h | ⟨ip, hip, h⟩
  · rw [h]
    rfl
  · rw [h]
    exact List.mem_enum_iff_get?.mp hip

/-- C4: `compare` computes the vectors `base - a` and `b - a`, thresholds
their cross product `v1.x*v2.y - v1.y*v2.x` against `EPSILON` (Greater
above `EPSILON`, Less below `-EPSILON`, Equal otherwise), and on the
scenario-C inputs returns `compare((1,1),(0,1),(0,0)) = Less` and
`compare((0,1),(1,1),(0,0)) = Greater`. -/
theorem compare_formula_and_orientation :
    (∀ a b base : Point, compare a b base =
      if (base.x - a.x) * (b.y - a.y) - (base.y - a.y) * (b.x - a.x) > EPSILON then Ordering.gt
      else if (base.x - a.x) * (b.y - a.y) - (base.y - a.y) * (b.x - a.x) < -EPSILON then
        Ordering.lt
      else Ordering.eq) ∧
    compare ⟨1, 1⟩ ⟨0, 1⟩ ⟨0, 0⟩ = Ordering.lt ∧
    compare ⟨0, 1⟩ ⟨1, 1⟩ ⟨0, 0⟩ = Ordering.gt :=
  ⟨fun _ _ _ => rfl, by norm_num [compare, EPSILON], by norm_num [compare, EPSILON]⟩

/-- C6: the comparator is antisymmetric: `compare a b base` is `Greater`
iff `compare b a base` is `Less`, and `Equal` iff `compare b a base` is
`Equal`. -/
theorem compare_antisymm (a b base : Point) :
    (compare a b base = Ordering.gt ↔ compare b a base = Ordering.lt) ∧
    (compare a b base = Ordering.eq ↔ compare b a base = Ordering.eq) :=
  ⟨compare_swap_gt a b base, compare_swap_eq a b base⟩

/-- C10: comparing a point with itself yields `Equal` for every base:
the vector `b - a` is zero, so the cross product is exactly zero and
lies inside the tolerance band. -/
theorem compare_self (p base : Point) : compare p p base = Ordering.eq := by
  rw [compare_eq_eq_iff]
  constructor <;> linarith [EPSILON_pos]

/-- C8: `distance` returns the squared Euclidean distance
`(p1.x - p2.x)^2 + (p1.y - p2.y)^2` (no square root); consequently it
vanishes on equal arguments and is symmetric. -/
theorem distance_spec :
    (∀ p1 p2 : Point, distance p1 p2 = (p1.x - p2.x) ^ 2 + (p1.y - p2.y) ^ 2) ∧
    (∀ p : Point, distance p p = 0) ∧
    (∀ p1 p2 : Point, distance p1 p2 = distance p2 p1) :=
  ⟨fun _ _ => rfl, fun p => by simp [distance], fun p1 p2 => by unfold distance; ring⟩

/-- C1: the code contradicts the claim here: `order_points` on the empty
vector evaluates `points[0]`, an out-of-bounds index that panics
(modelled as `none`); no `EmptyInput` error value exists in the code. -/
theorem order_points_nil : order_points [] = none := rfl

/-- C5: the output of `order_points` is a permutation of its input:
the anchor scan picks an element of the list, `swap_remove` removes
exactly that occurrence, the sort permutes the remainder, and the anchor
is re-inserted at the front. -/
theorem order_points_perm (points out : List Point)
    (h : order_points points = some out) : out.Perm points := by
  cases points with
  | nil => cases h
  | cons p0 rest0 =>
    rw [order_points_cons] at h
    injection h with h'
    subst h'
    obtain ⟨hlt, hgeteq⟩ := List.get?_eq_some.mp (order_points_scan_get p0 rest0)
    refine List.Perm.trans (List.Perm.cons _ (sort_unstable_by_perm _ _)) ?_
    rw [← hgeteq]
    exact swapRemove_perm (p0 :: rest0) _ hlt

/-- C5 witness: on the input `[(0,3),(1,0)]` the output is
`[(1,0),(0,3)]`, a permutation of the input. -/
theorem order_points_perm_witness :
    ([(⟨1, 0⟩ : Point), ⟨0, 3⟩]).Perm [⟨0, 3⟩, ⟨1, 0⟩] :=
  order_points_perm [⟨0, 3⟩, ⟨1, 0⟩] [⟨1, 0⟩, ⟨0, 3⟩] (by
    norm_num [order_points, lowestStep, swapRemove, sort_unstable_by, insertRev, compare,
      EPSILON, List.enum, List.enumFrom, abs_lt])

/-- C7: `order_points` terminates with a value on every non-empty
input; the embedding is a total structurally-recursive function, so a
result always exists. -/
theorem order_points_terminates (points : List Point) (h : points ≠ []) :
    ∃ out, order_points points = some out := by
  cases points with
  | nil => exact absurd rfl h
  | cons p0 rest0 => exact ⟨_, order_points_cons p0 rest0⟩

/-- C7 witness: termination applied to the single-point input `[(5,5)]`. -/
theorem order_points_terminates_witness :
    ∃ out, order_points [(⟨5, 5⟩ : Point)] = some out :=
  order_points_terminates [⟨5, 5⟩] (by simp)

/-- C2 counterexample: on `[(0,0), (-1, 6e-10), (-2, 12e-10)]` the
anchor scan walks up a chain of y-values each within `EPSILON` of the
previous candidate and returns `(-2, 12e-10)` as the first output
element, although its `y` exceeds the minimum y-coordinate 0 of the
input point `(0,0)` by more than `EPSILON`; the tie-break part fails on
the same input, since the anchor is not among the points within
`EPSILON` of the minimum `y` at all. -/
theorem order_points_anchor_cex :
    order_points [⟨0, 0⟩, ⟨-1, 6/10^10⟩, ⟨-2, 12/10^10⟩] =
      some [⟨-2, 12/10^10⟩, ⟨0, 0⟩, ⟨-1, 6/10^10⟩] ∧
    ¬ ((Point.mk (-2) (12/10^10)).y ≤ (Point.mk 0 0).y + EPSILON) := by
  constructor
  · norm_num [order_points, lowestStep, swapRemove, sort_unstable_by, insertRev, compare,
      EPSILON, List.enum, List.enumFrom, abs_lt]
    decide
  · norm_num [EPSILON]

/-- C2 (amended): the first element of `order_points(S)` is a member of
`S` and its `y` is within `(|S| + 1) * EPSILON` of the y-coordinate of
every element of `S` (the scan can drift upward by almost `EPSILON` per
step, so the single-`EPSILON` bound and the strict smallest-`x`
tie-break of the original claim do not hold). -/
theorem order_points_anchor_mem_approx_min (points out : List Point) (a0 : Point)
    (h : order_points points = some out) (h0 : out.head? = some a0) :
    a0 ∈ points ∧ ∀ p ∈ points, a0.y < p.y + ((points.length : ℚ) + 1) * EPSILON := by
  cases points with
  | nil => cases h
  | cons p0 rest0 =>
    rw [order_points_cons] at h
    injection h with h'
    subst h'
    rw [List.head?_cons] at h0
    injection h0 with h0'
    subst h0'
    constructor
    · exact List.get?_mem (order_points_scan_get p0 rest0)
    · intro p hp
      obtain ⟨-, hall⟩ := foldl_lowestStep_y (List.enum (p0 :: rest0)) (p0, 0)
      have hmem : p ∈ List.map Prod.snd (p0 :: rest0).enum := by
        rw [List.enum_map_snd]
        exact hp
      obtain ⟨ip, hip, rfl⟩ := List.mem_map.mp hmem
      have hb := hall ip hip
      rw [List.enum_length] at hb
      exact hb

/-- C2 witness: the amended anchor property applied to the single-point
input `[(5,5)]`. -/
theorem order_points_anchor_mem_approx_min_witness :
    (⟨5, 5⟩ : Point) ∈ [(⟨5, 5⟩ : Point)] ∧
      ∀ p ∈ [(⟨5, 5⟩ : Point)],
        (Point.mk 5 5).y < p.y + ((([(⟨5, 5⟩ : Point)]).length : ℚ) + 1) * EPSILON :=
  order_points_anchor_mem_approx_min [⟨5, 5⟩] [⟨5, 5⟩] ⟨5, 5⟩
    (by norm_num [order_points, lowestStep, swapRemove, sort_unstable_by, insertRev, compare,
      EPSILON, List.enum, List.enumFrom, abs_lt]) rfl

/-- C3 counterexample: on `[(1, 12e-10), (1, 6e-10), (1, 0), (0, -1)]`
the anchor is `(0,-1)` and the tail of the output is
`[(1,12e-10), (1,6e-10), (1,0)]`: adjacent comparisons are all `Equal`
(inside the tolerance band) so the insertion sort moves nothing, yet the
non-adjacent output pair at positions 1 and 3 compares `Greater`,
falsifying the claim that `compare(p[i], p[j], a0)` is never `Greater`
for `i < j`. -/
theorem order_points_monotone_cex :
    order_points [⟨1, 12/10^10⟩, ⟨1, 6/10^10⟩, ⟨1, 0⟩, ⟨0, -1⟩] =
      some [⟨0, -1⟩, ⟨1, 12/10^10⟩, ⟨1, 6/10^10⟩, ⟨1, 0⟩] ∧
    compare ⟨1, 12/10^10⟩ ⟨1, 0⟩ ⟨0, -1⟩ = Ordering.gt := by
  constructor
  · norm_num [order_points, lowestStep, swapRemove, sort_unstable_by, insertRev, compare,
      EPSILON, List.enum, List.enumFrom, abs_lt]
    decide
  · norm_num [compare, EPSILON]

/-- C3 (amended): for inputs of at most 21 points — so that the slice
remaining after the anchor is removed has at most 20 elements and
`sort_unstable_by` is exactly the insertion sort of the Rust
implementation — in the output of `order_points` with anchor `a0` at
position 0, every pair of ADJACENT tail elements `p[i]`, `p[i+1]`
satisfies `compare(p[i], p[i+1], a0) ≠ Greater`; for non-adjacent pairs
the property fails because the epsilon-tolerant comparator is not
transitive, and for longer inputs the quicksort/heapsort paths of
pdqsort leave the order unspecified under such a comparator. -/
theorem order_points_tail_chain (points out : List Point) (a0 : Point) (rest : List Point)
    (_hlen : points.length ≤ 21)
    (h : order_points points = some out) (he : out = a0 :: rest) :
    List.Chain' (fun p q => compare p q a0 ≠ Ordering.gt) rest := by
  cases points with
  | nil => cases h
  | cons p0 rest0 =>
    rw [order_points_cons] at h
    injection h with h'
    rw [he] at h'
    injection h' with h1 h2
    subst h1
    subst h2
    exact sort_unstable_by_chain _ _

/-- C3 witness: the amended adjacency property applied to the
single-point input `[(5,5)]`, whose output tail is empty. -/
theorem order_points_tail_chain_witness :
    List.Chain' (fun p q => compare p q (⟨5, 5⟩ : Point) ≠ Ordering.gt) [] :=
  order_points_tail_chain [⟨5, 5⟩] [⟨5, 5⟩] ⟨5, 5⟩ [] (by simp)
    (by norm_num [order_points, lowestStep, swapRemove, sort_unstable_by, insertRev, compare,
      EPSILON, List.enum, List.enumFrom, abs_lt]) rfl

/-- C9: `order_points` is deterministic: identical input collections
produce identical results. -/
theorem order_points_deterministic (l1 l2 : List Point) (h : l1 = l2) :
    order_points l1 = order_points l2 := by rw [h]

/-- C9 witness: determinism applied to the concrete input `[(1,2)]`. -/
theorem order_points_deterministic_witness :
    order_points [⟨1, 2⟩] = order_points [⟨1, 2⟩] :=
  order_points_deterministic [⟨1, 2⟩] [⟨1, 2⟩] rfl

end Chan
